import Mathlib

/-
Verification of the utreexo bridge-data generator
(`scripts/data/generate_utreexo_data.py`).

The Python source is shallowly embedded below:
* `TxOut.serialize` and its byte-packing loop become pure Lean functions on
  byte lists (a byte is `Fin 256`, exactly the values a Python `bytes`
  element ranges over; the script string is represented by the byte string
  `byte_data` it decodes to, since every property of interest quantifies
  over that byte string);
* `OutPoint.hash` is parametric in the external compression function
  (`poseidon_hash_many`), which the program treats as a black box;
* the block replayer (`apply_blocks` / `handle_txin` / `handle_txout`) is
  embedded as explicit state passing over an abstract accumulator
  interface, with failure of the accumulator `delete` call modelled by
  `Except`.  Each definition additionally records, as ghost data, the
  exact sequence of accumulator calls it issues (an `Event` per
  `delete`/`add`), so that claims about which leaves reach the
  accumulator, and in which order, are statable; the non-ghost fields
  compute exactly what the Python code computes.
-/

namespace UtreexoGen

/-- A byte, as iterating over a Python `bytes` object yields it: an integer
in `[0, 255]`. -/
abbrev Byte := Fin 256

/-- Big-endian expansion of `w` into exactly `n` bytes, i.e. the value list
of Python's `w.to_bytes(n, byteorder="big")` (for `w < 256 ^ n`). -/
def beBytes : Nat → Nat → List Nat
  | 0, _ => []
  | n + 1, w => beBytes n (w / 256) ++ [w % 256]

/-- Little-endian interpretation of a byte string, i.e. Python's
`int.from_bytes(bs, "little")`. -/
def leBytes : List Byte → Nat
  | [] => 0
  | b :: bs => b.val + 256 * leBytes bs

/-- The running state of the packing loop inside `TxOut.serialize`:
the completed words `sub_data`, the pending big-endian accumulator
`pending_word` and its byte count `pending_word_len`. -/
structure PackState where
  sub_data : List Nat
  pending_word : Nat
  pending_word_len : Nat
  deriving DecidableEq, Repr

/-- One iteration of the `for byte in byte_data` loop of
`TxOut.serialize`.  The Python range check `0 <= byte <= 255` cannot fire
(elements of `bytes` always satisfy it; here this is the type of `Byte`),
and the `to_bytes(31, "big")` / `from_bytes` round trip is the identity on
the flushed value, which always fits in 31 bytes. -/
def packStep (s : PackState) (byte : Byte) : PackState :=
  if s.pending_word_len = 0 then
    { s with pending_word := byte.val, pending_word_len := 1 }
  else
    let new_pending := s.pending_word * 0x100 + byte.val
    if s.pending_word_len < 31 - 1 then
      { s with pending_word := new_pending,
               pending_word_len := s.pending_word_len + 1 }
    else
      { sub_data := s.sub_data ++ [new_pending],
        pending_word := 0, pending_word_len := 0 }

/-- The whole packing loop of `TxOut.serialize`, started (as in the
source) from empty `sub_data` and a zero pending word. -/
def packBytes (byte_data : List Byte) : PackState :=
  byte_data.foldl packStep { sub_data := [], pending_word := 0, pending_word_len := 0 }

/-- A spendable output: `value`, locking script (as the byte string
`byte_data` that the Python code decodes `pk_script` to), `cached` flag. -/
structure TxOut where
  value : Nat
  pk_script : List Byte
  cached : Bool
  deriving DecidableEq, Repr

/-- `TxOut.serialize`: `[value]`, then `len(sub_data)` and the completed
words, then the pending word (only if its length is nonzero) and the
pending length, then the cached flag as `1`/`0`. -/
def TxOut.serialize (t : TxOut) : List Nat :=
  let p := packBytes t.pk_script
  let data := p.sub_data.length :: p.sub_data
      ++ (if p.pending_word_len > 0 then [p.pending_word] else [])
      ++ [p.pending_word_len]
  t.value :: data ++ [if t.cached then 1 else 0]

/-- An outpoint as `OutPoint.hash` consumes it; `txid` and `block_hash`
are held as the byte strings `bytes.fromhex` decodes the hex fields to. -/
structure OutPoint where
  txid : List Byte
  vout : Nat
  data : TxOut
  block_height : Nat
  block_time : Nat
  block_hash : List Byte
  is_coinbase : Bool
  deriving DecidableEq, Repr

/-- The field-element sequence `tab` that `OutPoint.hash` assembles and
passes to `poseidon_hash_many`: the two little-endian halves of `txid`
(Python slices `[:16]` and `[16:]`), `vout`, the serialized output, the
two little-endian halves of `block_hash`, height, time, and the coinbase
flag as `1`/`0`. -/
def OutPoint.hashInput (o : OutPoint) : List Nat :=
  [leBytes (o.txid.take 16), leBytes (o.txid.drop 16), o.vout]
    ++ o.data.serialize
    ++ [leBytes (o.block_hash.take 16), leBytes (o.block_hash.drop 16),
        o.block_height, o.block_time, if o.is_coinbase then 1 else 0]

/-- `OutPoint.hash`, parametric in the external `poseidon_hash_many`. -/
def OutPoint.hash (compress : List Nat → Nat) (o : OutPoint) : Nat :=
  compress o.hashInput

/-- Invariant of the packing loop. After consuming the byte string
`consumed`: the pending word holds at most 30 bytes and is bounded by its
byte count; every completed word fits in 31 bytes; and expanding the
completed words to 31 bytes each, the pending word to
`pending_word_len` bytes, and concatenating, recovers `consumed`. -/
def PackInv (consumed : List Byte) (s : PackState) : Prop :=
  s.pending_word_len ≤ 30 ∧
  s.pending_word < 256 ^ s.pending_word_len ∧
  (∀ w ∈ s.sub_data, w < 256 ^ 31) ∧
  (s.sub_data.map (beBytes 31)).flatten
      ++ beBytes s.pending_word_len s.pending_word
    = consumed.map Fin.val

/-- A 31-byte locking script of maximal bytes. -/
def ff31 : List Byte := List.replicate 31 255

/-- The dictionary shape of an output (`value`, `pk_script`, `cached`) as
`handle_txin`/`handle_txout` read it from the block data. -/
structure TxOutDict where
  value : Nat
  pk_script : List Byte
  cached : Bool
  deriving DecidableEq, Repr

/-- The dictionary `input["previous_output"]` read by `handle_txin`. -/
structure PrevOutDict where
  txid : List Byte
  vout : Nat
  data : TxOutDict
  block_height : Nat
  block_time : Nat
  block_hash : List Byte
  is_coinbase : Bool
  deriving DecidableEq, Repr

/-- A transaction input as `handle_txin` reads it. -/
structure TxIn where
  previous_output : PrevOutDict
  deriving DecidableEq, Repr

/-- A transaction: its inputs and outputs, as `apply_blocks` reads them. -/
structure Tx where
  inputs : List TxIn
  outputs : List TxOutDict
  deriving DecidableEq, Repr

/-- A block: hash, height, time, and `data`, the insertion-ordered mapping
from txid to transaction (a Python dict iterated in order). -/
structure Block where
  hash : List Byte
  height : Nat
  time : Nat
  data : List (List Byte × Tx)
  deriving DecidableEq, Repr

/-- The `OutPoint` that `handle_txin` constructs from
`input["previous_output"]`. -/
def prevOutpoint (po : PrevOutDict) : OutPoint :=
  { txid := po.txid, vout := po.vout,
    data := { value := po.data.value, pk_script := po.data.pk_script,
              cached := po.data.cached },
    block_height := po.block_height, block_time := po.block_time,
    block_hash := po.block_hash, is_coinbase := po.is_coinbase }

/-- An accumulator snapshot as `snapshot_state` reports it: the formatted
root of every forest row and the current leaf count. -/
structure Snapshot where
  roots : List (Option Nat)
  num_leaves : Nat
  deriving DecidableEq, Repr

/-- The external accumulator, specified only at its interface: `add`
inserts a leaf; `delete` removes a leaf, returning the membership proof
and the leaf position, and fails (returns `none`) exactly when the
accumulator rejects the removal; `snapshot_state` reads the current
commitment. `apply_blocks` below is parametric in this interface. -/
structure AccumAPI (α : Type) where
  add : α → Nat → α
  delete : α → Nat → Option (List Nat × Nat × α)
  snapshot_state : α → Snapshot

/-- One collected proof record: the formatted proof elements and the leaf
index returned by the accumulator `delete` call. -/
structure ProofEntry where
  proof : List Nat
  leaf_index : Nat
  deriving DecidableEq, Repr

/-- Ghost record of one accumulator call: a `delete` (with the outpoint
whose hash was removed and the returned proof and index) or an `add`
(with the outpoint whose hash was inserted). -/
inductive Event where
  | remove (o : OutPoint) (proof : List Nat) (leaf_index : Nat)
  | insert (o : OutPoint)
  deriving DecidableEq, Repr

/-- Whether an event is an accumulator `delete` call. -/
def Event.isRemove : Event → Bool
  | .remove _ _ _ => true
  | .insert _ => false

/-- The outpoint whose hash the event passed to the accumulator. -/
def Event.outpoint : Event → OutPoint
  | .remove o _ _ => o
  | .insert o => o

/-- The proof entries generated by a sequence of accumulator calls, in
call order: one entry per `delete`, none per `add`. -/
def proofEntriesOfEvents (evs : List Event) : List ProofEntry :=
  evs.filterMap fun e => match e with
    | .remove _ pr i => some { proof := pr, leaf_index := i }
    | .insert _ => none

/-- `handle_txin`: walk the inputs in order; skip an input whose
referenced output is cached; otherwise build the outpoint, `delete` its
hash from the accumulator (failure is the fatal structural
inconsistency), and append the returned proof and leaf index.  Returns
the collected proof entries, the accumulator, and the ghost event list. -/
def handle_txin {α : Type} (A : AccumAPI α) (compress : List Nat → Nat) :
    List TxIn → α → Except String (List ProofEntry × α × List Event)
  | [], st => .ok ([], st, [])
  | inp :: rest, st =>
    let po := inp.previous_output
    if po.data.cached then
      handle_txin A compress rest st
    else
      let o := prevOutpoint po
      match A.delete st (o.hash compress) with
      | none => .error "structural inconsistency: removed leaf not in accumulator"
      | some (pr, leaf_index, st1) =>
        match handle_txin A compress rest st1 with
        | .error e => .error e
        | .ok (ps, st2, evs) =>
          .ok ({ proof := pr, leaf_index := leaf_index } :: ps, st2,
               .remove o pr leaf_index :: evs)

/-- The loop body of `handle_txout`, carrying the running output index
`i` (the `vout` of the outpoint built for each non-cached output). -/
def handle_txout_go {α : Type} (A : AccumAPI α) (compress : List Nat → Nat)
    (block_hash : List Byte) (block_height block_time : Nat)
    (txid : List Byte) (is_coinbase : Bool) :
    Nat → List TxOutDict → α → α × List Event
  | _, [], st => (st, [])
  | i, out :: rest, st =>
    if out.cached then
      handle_txout_go A compress block_hash block_height block_time txid
        is_coinbase (i + 1) rest st
    else
      let o : OutPoint :=
        { txid := txid, vout := i,
          data := { value := out.value, pk_script := out.pk_script,
                    cached := out.cached },
          block_height := block_height, block_time := block_time,
          block_hash := block_hash, is_coinbase := is_coinbase }
      let st1 := A.add st (o.hash compress)
      let p := handle_txout_go A compress block_hash block_height block_time txid
        is_coinbase (i + 1) rest st1
      (p.1, .insert o :: p.2)

/-- `handle_txout`: enumerate the outputs from index 0, skipping cached
outputs and inserting the hash of each remaining one. -/
def handle_txout {α : Type} (A : AccumAPI α) (compress : List Nat → Nat)
    (outputs : List TxOutDict) (block_hash : List Byte)
    (block_height block_time : Nat) (txid : List Byte) (is_coinbase : Bool)
    (st : α) : α × List Event :=
  handle_txout_go A compress block_hash block_height block_time txid
    is_coinbase 0 outputs st

/-- The input phase of one block over the non-coinbase transactions
(`apply_blocks` skips index 0 via its `i != 0` test): `handle_txin` on
each transaction in order, concatenating proof entries and events. -/
def inputPhaseAux {α : Type} (A : AccumAPI α) (compress : List Nat → Nat) :
    List (List Byte × Tx) → α → Except String (List ProofEntry × α × List Event)
  | [], st => .ok ([], st, [])
  | (_, tx) :: rest, st =>
    match handle_txin A compress tx.inputs st with
    | .error e => .error e
    | .ok (ps, st1, evs) =>
      match inputPhaseAux A compress rest st1 with
      | .error e => .error e
      | .ok (ps2, st2, evs2) => .ok (ps ++ ps2, st2, evs ++ evs2)

/-- The output phase of one block: `handle_txout` on every transaction in
order, the first (index 0) being the coinbase. -/
def outputPhaseAux {α : Type} (A : AccumAPI α) (compress : List Nat → Nat)
    (b : Block) : Nat → List (List Byte × Tx) → α → α × List Event
  | _, [], st => (st, [])
  | i, (txid, tx) :: rest, st =>
    let p := handle_txout A compress tx.outputs b.hash b.height b.time txid
      (i == 0) st
    let q := outputPhaseAux A compress b (i + 1) rest p.1
    (q.1, p.2 ++ q.2)

/-- Processing of one block inside `apply_blocks`: first the input phase
over every transaction except the first (the coinbase, excluded by the
`i != 0` test, here by dropping the head), then the output phase over
every transaction.  Returns this block's proof entries, the accumulator,
and the events in call order. -/
def processBlock {α : Type} (A : AccumAPI α) (compress : List Nat → Nat)
    (b : Block) (st : α) : Except String (List ProofEntry × α × List Event) :=
  match inputPhaseAux A compress (b.data.drop 1) st with
  | .error e => .error e
  | .ok (ps, st1, evIn) =>
    let p := outputPhaseAux A compress b 0 b.data st1
    .ok (ps, p.1, evIn ++ p.2)

/-- The block loop of `apply_blocks`.  For the last block (empty tail) the
snapshot taken before processing becomes `state` and that block's proof
entries become the collected proofs; earlier blocks contribute neither.
Also returns the per-block ghost event lists. -/
def applyLoop {α : Type} (A : AccumAPI α) (compress : List Nat → Nat) :
    List Block → α →
    Except String (Option Snapshot × List ProofEntry × α × List (List Event))
  | [], st => .ok (none, [], st, [])
  | b :: rest, st =>
    match processBlock A compress b st with
    | .error e => .error e
    | .ok (bp, st1, evs) =>
      match applyLoop A compress rest st1 with
      | .error e => .error e
      | .ok (state, proofs, st2, evss) =>
        .ok (if rest.isEmpty then some (A.snapshot_state st) else state,
             if rest.isEmpty then bp else proofs,
             st2, evs :: evss)

/-- The result dictionary of `apply_blocks`: `state` (`none` stands for
the empty dictionary `{}`), `proofs` and `expected`, plus the ghost
fields `final_acc` (the accumulator after all blocks) and `block_events`
(per block, the accumulator calls made for it, in order). -/
structure ApplyResult (α : Type) where
  state : Option Snapshot
  proofs : List ProofEntry
  expected : Snapshot
  final_acc : α
  block_events : List (List Event)
  deriving DecidableEq, Repr

/-- `apply_blocks`: run the block loop from accumulator state `st0` and
report `state`, `proofs` and the final snapshot `expected`. -/
def apply_blocks {α : Type} (A : AccumAPI α) (compress : List Nat → Nat)
    (st0 : α) (blocks : List Block) : Except String (ApplyResult α) :=
  match applyLoop A compress blocks st0 with
  | .error e => .error e
  | .ok (state, proofs, stf, evss) =>
    .ok { state := state, proofs := proofs, expected := A.snapshot_state stf,
          final_acc := stf, block_events := evss }

/-- Modelled from the spec: the external `Utreexo` accumulator object
(`utreexo` package, not part of this repository), reduced to its
interface of section 6 of the specification — the multiset of currently
inserted leaves, `leaf_nodes`, in insertion order. -/
structure Utreexo where
  leaves : List Nat
  deriving DecidableEq, Repr

/-- Modelled from the spec: the external accumulator operations.
`delete` fails exactly when the leaf is not currently a member, otherwise
it removes one occurrence and returns its witness (proof contents are the
accumulator's internal business and are modelled as the removed leaf
itself) and the leaf's position; `add` appends; `snapshot_state` reports
a root list (modelled as a deterministic function of the leaves — the
forest structure is out of scope) and the leaf count. -/
def specAccum : AccumAPI Utreexo :=
  { add := fun s leaf => { leaves := s.leaves ++ [leaf] }
    delete := fun s leaf =>
      if leaf ∈ s.leaves then
        some ([leaf], s.leaves.findIdx (fun x => x == leaf),
              { leaves := s.leaves.erase leaf })
      else none
    snapshot_state := fun s => { roots := s.leaves.map some,
                                 num_leaves := s.leaves.length } }

/-- The empty accumulator. -/
def utreexo0 : Utreexo := { leaves := [] }

/-- A block with the inputs of its first (coinbase) transaction replaced
by `ins`; used to state that those inputs are never read. -/
def setFirstInputs (b : Block) (ins : List TxIn) : Block :=
  { b with data := match b.data with
      | [] => []
      | (txid, tx) :: rest => (txid, { tx with inputs := ins }) :: rest }

/-- A concrete compression function for the concrete runs below (any
deterministic function does; the external hash is a black box). -/
def cexCompress : List Nat → Nat := fun l => l.length

/-- A concrete coinbase output: 50 BTC to an empty script, not cached. -/
def outA : TxOutDict := { value := 5000000000, pk_script := [], cached := false }

/-- The txid (as bytes) of the coinbase transaction of `blockA`. -/
def txidA : List Byte := List.replicate 32 1

/-- A concrete first block: one coinbase transaction creating `outA`. -/
def blockA : Block :=
  { hash := List.replicate 32 2, height := 100, time := 1000,
    data := [(txidA, { inputs := [], outputs := [outA] })] }

/-- The outpoint under which `blockA`'s single output is inserted. -/
def outpointA : OutPoint :=
  { txid := txidA, vout := 0,
    data := { value := 5000000000, pk_script := [], cached := false },
    block_height := 100, block_time := 1000,
    block_hash := List.replicate 32 2, is_coinbase := true }

/-- The input of `blockB`'s second transaction: it spends `outA`. -/
def spendA : TxIn :=
  { previous_output :=
    { txid := txidA, vout := 0, data := outA, block_height := 100,
      block_time := 1000, block_hash := List.replicate 32 2,
      is_coinbase := true } }

/-- A concrete second block: a coinbase transaction with no outputs, then
a transaction spending `outA`. -/
def blockB : Block :=
  { hash := List.replicate 32 3, height := 101, time := 1001,
    data := [(List.replicate 32 4, { inputs := [], outputs := [] }),
             (List.replicate 32 5, { inputs := [spendA], outputs := [] })] }

/-- A concrete block whose every input and output is cached. -/
def blockC : Block :=
  { hash := List.replicate 32 6, height := 102, time := 1002,
    data := [(List.replicate 32 7,
              { inputs := [{ previous_output :=
                  { txid := txidA, vout := 0,
                    data := { value := 1, pk_script := [], cached := true },
                    block_height := 100, block_time := 1000,
                    block_hash := List.replicate 32 2, is_coinbase := false } }],
                outputs := [{ value := 2, pk_script := [], cached := true }] })] }

/-- The result of replaying `[blockA]` from the empty accumulator with
`cexCompress` (the hash of `outpointA` under `cexCompress` is 12, the
length of its twelve-element input sequence). -/
def resultA : ApplyResult Utreexo :=
  { state := some { roots := [], num_leaves := 0 }, proofs := [],
    expected := { roots := [some 12], num_leaves := 1 },
    final_acc := { leaves := [12] },
    block_events := [[Event.insert outpointA]] }

/-- The result of replaying `[blockA, blockB]` from the empty
accumulator with `cexCompress`: the only removal happens in the last
block, producing the single proof entry. -/
def resultAB : ApplyResult Utreexo :=
  { state := some { roots := [some 12], num_leaves := 1 },
    proofs := [{ proof := [12], leaf_index := 0 }],
    expected := { roots := [], num_leaves := 0 },
    final_acc := { leaves := [] },
    block_events := [[Event.insert outpointA], [Event.remove outpointA [12] 0]] }

/-- A concrete block containing a same-block spend: its coinbase creates
`outA` and its second transaction immediately spends it. -/
def blockD : Block :=
  { hash := List.replicate 32 8, height := 103, time := 1003,
    data := [(txidA, { inputs := [], outputs := [outA] }),
             (List.replicate 32 9,
              { inputs := [{ previous_output :=
                  { txid := txidA, vout := 0, data := outA,
                    block_height := 103, block_time := 1003,
                    block_hash := List.replicate 32 8, is_coinbase := true } }],
                outputs := [] })] }

theorem beBytes_zero (w : Nat) : beBytes 0 w = [] := rfl

theorem beBytes_mul_add (n w b : Nat) (hb : b < 256) :
    beBytes (n + 1) (w * 256 + b) = beBytes n w ++ [b] := by
  have h1 : (w * 256 + b) / 256 = w := by omega
  have h2 : (w * 256 + b) % 256 = b := by omega
  simp [beBytes, h1, h2]

theorem beBytes_one (b : Nat) (hb : b < 256) : beBytes 1 b = [b] := by
  have h := beBytes_mul_add 0 0 b hb
  simpa [beBytes_zero] using h

theorem packStep_inv {c : List Byte} {s : PackState} (h : PackInv c s) (b : Byte) :
    PackInv (c ++ [b]) (packStep s b) := by
  obtain ⟨hlen, hpend, hwords, hrec⟩ := h
  by_cases h0 : s.pending_word_len = 0
  · have hstep : packStep s b =
        { s with pending_word := b.val, pending_word_len := 1 } := by
      simp [packStep, h0]
    rw [hstep]
    refine ⟨?_, ?_, ?_, ?_⟩
    · show 1 ≤ 30; omega
    · show b.val < 256 ^ 1
      rw [pow_one]; exact b.isLt
    · exact hwords
    · show (s.sub_data.map (beBytes 31)).flatten ++ beBytes 1 b.val
        = (c ++ [b]).map Fin.val
      rw [h0, beBytes_zero, List.append_nil] at hrec
      rw [beBytes_one b.val b.isLt, hrec]
      simp
  · by_cases h30 : s.pending_word_len < 31 - 1
    · have hstep : packStep s b =
          { s with pending_word := s.pending_word * 0x100 + b.val,
                   pending_word_len := s.pending_word_len + 1 } := by
        simp [packStep, h0, h30]
      rw [hstep]
      refine ⟨?_, ?_, ?_, ?_⟩
      · show s.pending_word_len + 1 ≤ 30; omega
      · show s.pending_word * 0x100 + b.val < 256 ^ (s.pending_word_len + 1)
        rw [pow_succ]
        have hb := b.isLt
        omega
      · exact hwords
      · show (s.sub_data.map (beBytes 31)).flatten
            ++ beBytes (s.pending_word_len + 1) (s.pending_word * 0x100 + b.val)
            = (c ++ [b]).map Fin.val
        rw [show s.pending_word * 0x100 + b.val = s.pending_word * 256 + b.val from rfl,
          beBytes_mul_add _ _ _ b.isLt, ← List.append_assoc, hrec]
        simp
    · have hlen30 : s.pending_word_len = 30 := by omega
      rw [hlen30] at hpend hrec
      have hstep : packStep s b =
          { sub_data := s.sub_data ++ [s.pending_word * 0x100 + b.val],
            pending_word := 0, pending_word_len := 0 } := by
        simp [packStep, h0, h30]
      rw [hstep]
      have hnew : s.pending_word * 0x100 + b.val < 256 ^ 31 := by
        have hb := b.isLt
        have h256 : (256 : Nat) ^ 31 = 256 ^ 30 * 256 := by
          rw [← pow_succ]
        rw [h256]
        omega
      refine ⟨?_, ?_, ?_, ?_⟩
      · show (0 : Nat) ≤ 30; omega
      · show (0 : Nat) < 256 ^ 0; norm_num
      · intro w hw
        simp only [List.mem_append, List.mem_singleton] at hw
        rcases hw with hw | hw
        · exact hwords w hw
        · rw [hw]; exact hnew
      · show ((s.sub_data ++ [s.pending_word * 0x100 + b.val]).map (beBytes 31)).flatten
            ++ beBytes 0 0 = (c ++ [b]).map Fin.val
        have h31 : beBytes 31 (s.pending_word * 0x100 + b.val)
            = beBytes 30 s.pending_word ++ [b.val] := by
          have h := beBytes_mul_add 30 s.pending_word b.val b.isLt
          norm_num at h
          exact h
        rw [beBytes_zero, List.append_nil, List.map_append, List.flatten_append]
        simp only [List.map_cons, List.map_nil, List.flatten_cons, List.flatten_nil,
          List.append_nil]
        rw [h31, ← List.append_assoc, hrec]
        simp

theorem packFoldl_inv : ∀ (bs c : List Byte) (s : PackState),
    PackInv c s → PackInv (c ++ bs) (bs.foldl packStep s)
  | [], c, s, h => by simpa using h
  | b :: bs, c, s, h => by
    have h3 := packFoldl_inv bs (c ++ [b]) (packStep s b) (packStep_inv h b)
    simpa using h3

theorem packBytes_inv (bs : List Byte) : PackInv bs (packBytes bs) := by
  have hinit : PackInv [] { sub_data := [], pending_word := 0, pending_word_len := 0 } :=
    ⟨by decide, by decide, by simp, by simp [beBytes_zero]⟩
  have h := packFoldl_inv bs [] _ hinit
  simpa [packBytes] using h

/-- Claim C1, as stated, is false: on a 31-byte script the flush merges
the 31st byte into the pending word before emitting it, so the completed
word occupies 31 bytes and is not below `2 ^ (30 * 8)`. -/
theorem C1_counterexample :
    ¬ ∀ w ∈ (packBytes ff31).sub_data, w < 2 ^ (30 * 8) := by decide

/-- Claim C1 (amended): every completed word produced by the packing loop
inside `TxOut.serialize`, read as a big-endian unsigned integer, is less
than `2 ^ (31 * 8)`: words group at most 31 bytes each, the flush being
triggered exactly when a 31st byte is merged into the pending word. -/
theorem C1_word_bound (bs : List Byte) :
    ∀ w ∈ (packBytes bs).sub_data, w < 2 ^ (31 * 8) := by
  intro w hw
  have h := (packBytes_inv bs).2.2.1 w hw
  have he : (256 : Nat) ^ 31 = 2 ^ (31 * 8) := by norm_num
  rw [he] at h
  exact h

theorem C1_word_bound_witness : ((2 : Nat) ^ 248 - 1) < 2 ^ (31 * 8) :=
  C1_word_bound ff31 (2 ^ 248 - 1) (by decide)

/-- Claim C2: `TxOut.serialize` returns exactly
`value, wordCount, word_0, ..., word_x, tailWord (only when the tail
length is nonzero), tailLength, cachedFlag` in that order; for an empty
script it returns `value, 0, 0, cachedFlag`. -/
theorem C2_serialize_shape (t : TxOut) :
    t.serialize
      = [t.value] ++ [(packBytes t.pk_script).sub_data.length]
          ++ (packBytes t.pk_script).sub_data
          ++ (if 0 < (packBytes t.pk_script).pending_word_len
              then [(packBytes t.pk_script).pending_word] else [])
          ++ [(packBytes t.pk_script).pending_word_len]
          ++ [if t.cached then 1 else 0]
    ∧ (t.pk_script = [] → t.serialize = [t.value, 0, 0, if t.cached then 1 else 0]) := by
  constructor
  · simp [TxOut.serialize]
  · intro h
    simp [TxOut.serialize, h, packBytes, beBytes]

theorem C2_serialize_shape_witness :
    TxOut.serialize { value := 7, pk_script := [], cached := true } = [7, 0, 0, 1] :=
  (C2_serialize_shape { value := 7, pk_script := [], cached := true }).2 rfl

/-- Claim C3: for a 32-byte txid and block hash (each split as two
16-byte halves), `OutPoint.hash` passes to the external compress function
exactly: txid bytes 0..15 little-endian, txid bytes 16..31 little-endian,
`vout`, the full `TxOut.serialize` sequence in place, block-hash bytes
0..15 and 16..31 little-endian, height, time, and the coinbase flag as
`1`/`0`; the compress output is the returned leaf. -/
theorem C3_hash_order (compress : List Nat → Nat) (o : OutPoint)
    (t1 t2 b1 b2 : List Byte)
    (ht : o.txid = t1 ++ t2) (ht1 : t1.length = 16) (ht2 : t2.length = 16)
    (hb : o.block_hash = b1 ++ b2) (hb1 : b1.length = 16) (hb2 : b2.length = 16) :
    o.hash compress
      = compress ([leBytes t1, leBytes t2, o.vout] ++ o.data.serialize
          ++ [leBytes b1, leBytes b2, o.block_height, o.block_time,
              if o.is_coinbase then 1 else 0]) := by
  unfold OutPoint.hash OutPoint.hashInput
  rw [ht, hb, List.take_left' ht1, List.drop_left' ht1, List.take_left' hb1,
    List.drop_left' hb1]

theorem C3_hash_order_witness :
    OutPoint.hash cexCompress
      { txid := List.replicate 16 (0 : Byte) ++ List.replicate 16 1, vout := 5,
        data := { value := 9, pk_script := [], cached := false },
        block_height := 100, block_time := 1000,
        block_hash := List.replicate 16 (2 : Byte) ++ List.replicate 16 3,
        is_coinbase := true }
      = cexCompress
          ([leBytes (List.replicate 16 (0 : Byte)),
            leBytes (List.replicate 16 (1 : Byte)), 5]
            ++ TxOut.serialize { value := 9, pk_script := [], cached := false }
            ++ [leBytes (List.replicate 16 (2 : Byte)),
                leBytes (List.replicate 16 (3 : Byte)), 100, 1000, 1]) :=
  C3_hash_order cexCompress _ _ _ _ _ rfl (by decide) (by decide) rfl (by decide)
    (by decide)

/-- Claim C9: reassembling the packing output — each completed word
expanded back to its original 31-byte width, the tail word written in
exactly `pending_word_len` bytes — and concatenating in output order
reproduces the input byte string. -/
theorem C9_round_trip (bs : List Byte) :
    ((packBytes bs).sub_data.map (beBytes 31)).flatten
      ++ beBytes (packBytes bs).pending_word_len (packBytes bs).pending_word
      = bs.map Fin.val :=
  (packBytes_inv bs).2.2.2

theorem handle_txin_spec {α : Type} (A : AccumAPI α) (c : List Nat → Nat) :
    ∀ (ins : List TxIn) (st : α) (ps : List ProofEntry) (st1 : α) (evs : List Event),
      handle_txin A c ins st = .ok (ps, st1, evs) →
      (∀ e ∈ evs, e.isRemove = true ∧ (e.outpoint).data.cached = false)
        ∧ ps = proofEntriesOfEvents evs
  | [], st, ps, st1, evs, h => by
    simp only [handle_txin] at h
    cases h
    exact ⟨by simp, rfl⟩
  | inp :: rest, st, ps, st1, evs, h => by
    simp only [handle_txin] at h
    split at h
    · exact handle_txin_spec A c rest st ps st1 evs h
    · split at h
      · cases h
      · split at h
        · cases h
        · cases h
          rename_i hc x1 pr li st' hdel x2 ps2 evs2 hrec
          have ih := handle_txin_spec A c rest st' ps2 st1 evs2 hrec
          have hcf : inp.previous_output.data.cached = false := by
            simpa using hc
          refine ⟨?_, ?_⟩
          · intro e he
            rcases List.mem_cons.mp he with he | he
            · subst he
              refine ⟨rfl, ?_⟩
              simpa [Event.outpoint, prevOutpoint] using hcf
            · exact ih.1 e he
          · simp [proofEntriesOfEvents, List.filterMap_cons, ih.2]

theorem handle_txout_go_spec {α : Type} (A : AccumAPI α) (c : List Nat → Nat)
    (bh : List Byte) (hh tt : Nat) (txid : List Byte) (cb : Bool) :
    ∀ (i : Nat) (outs : List TxOutDict) (st : α),
      ∀ e ∈ (handle_txout_go A c bh hh tt txid cb i outs st).2,
        e.isRemove = false ∧ (e.outpoint).data.cached = false
  | i, [], st => by
    simp [handle_txout_go]
  | i, out :: rest, st => by
    intro e he
    simp only [handle_txout_go] at he
    split at he
    · exact handle_txout_go_spec A c bh hh tt txid cb (i + 1) rest st e he
    · rename_i hc
      rcases List.mem_cons.mp he with he | he
      · subst he
        refine ⟨rfl, ?_⟩
        simpa [Event.outpoint] using hc
      · exact handle_txout_go_spec A c bh hh tt txid cb (i + 1) rest _ e he

theorem inputPhaseAux_spec {α : Type} (A : AccumAPI α) (c : List Nat → Nat) :
    ∀ (txs : List (List Byte × Tx)) (st : α) (ps : List ProofEntry) (st1 : α)
      (evs : List Event),
      inputPhaseAux A c txs st = .ok (ps, st1, evs) →
      (∀ e ∈ evs, e.isRemove = true ∧ (e.outpoint).data.cached = false)
        ∧ ps = proofEntriesOfEvents evs
  | [], st, ps, st1, evs, h => by
    simp only [inputPhaseAux] at h
    cases h
    exact ⟨by simp, rfl⟩
  | (txid, tx) :: rest, st, ps, st1, evs, h => by
    simp only [inputPhaseAux] at h
    split at h
    · cases h
    · split at h
      · cases h
      · cases h
        rename_i x1 ps1 st2 evs1 h1 x2 ps2 evs2 h2
        have ih1 := handle_txin_spec A c tx.inputs st ps1 st2 evs1 h1
        have ih2 := inputPhaseAux_spec A c rest st2 ps2 st1 evs2 h2
        refine ⟨?_, ?_⟩
        · intro e he
          rcases List.mem_append.mp he with he | he
          · exact ih1.1 e he
          · exact ih2.1 e he
        · rw [proofEntriesOfEvents, List.filterMap_append, ← proofEntriesOfEvents,
            ← proofEntriesOfEvents, ih1.2, ih2.2]

theorem outputPhaseAux_spec {α : Type} (A : AccumAPI α) (c : List Nat → Nat)
    (b : Block) :
    ∀ (i : Nat) (txs : List (List Byte × Tx)) (st : α),
      ∀ e ∈ (outputPhaseAux A c b i txs st).2,
        e.isRemove = false ∧ (e.outpoint).data.cached = false
  | i, [], st => by
    simp [outputPhaseAux]
  | i, (txid, tx) :: rest, st => by
    intro e he
    simp only [outputPhaseAux] at he
    rcases List.mem_append.mp he with he | he
    · exact handle_txout_go_spec A c b.hash b.height b.time txid (i == 0) 0
        tx.outputs st e he
    · exact outputPhaseAux_spec A c b (i + 1) rest _ e he

theorem proofEntriesOfEvents_eq_nil {evs : List Event}
    (h : ∀ e ∈ evs, e.isRemove = false) : proofEntriesOfEvents evs = [] := by
  induction evs with
  | nil => rfl
  | cons e rest ih =>
    have he := h e (List.mem_cons_self e rest)
    cases e with
    | remove o pr li => simp [Event.isRemove] at he
    | insert o =>
      simp only [proofEntriesOfEvents, List.filterMap_cons]
      exact ih fun x hx => h x (List.mem_cons_of_mem _ hx)

theorem processBlock_spec {α : Type} (A : AccumAPI α) (c : List Nat → Nat)
    (b : Block) (st : α) (ps : List ProofEntry) (st2 : α) (evs : List Event)
    (h : processBlock A c b st = .ok (ps, st2, evs)) :
    ∃ evIn evOut, evs = evIn ++ evOut
      ∧ (∀ e ∈ evIn, e.isRemove = true ∧ (e.outpoint).data.cached = false)
      ∧ (∀ e ∈ evOut, e.isRemove = false ∧ (e.outpoint).data.cached = false)
      ∧ ps = proofEntriesOfEvents evs := by
  simp only [processBlock] at h
  split at h
  · cases h
  · cases h
    rename_i x1 st3 evIn h1
    have ih1 := inputPhaseAux_spec A c (b.data.drop 1) st ps st3 evIn h1
    have ih2 := outputPhaseAux_spec A c b 0 b.data st3
    refine ⟨evIn, (outputPhaseAux A c b 0 b.data st3).2, rfl, ih1.1, ih2, ?_⟩
    rw [proofEntriesOfEvents, List.filterMap_append, ← proofEntriesOfEvents,
      ← proofEntriesOfEvents, ← ih1.2,
      proofEntriesOfEvents_eq_nil fun e he => (ih2 e he).1, List.append_nil]

theorem getLastD_cons_cons {β : Type} (a x : β) (t : List β) (d1 d2 : β) :
    (a :: x :: t).getLastD d1 = (x :: t).getLastD d2 := by
  rw [List.getLastD_cons, List.getLastD_cons, List.getLastD_cons]

theorem applyLoop_spec {α : Type} (A : AccumAPI α) (c : List Nat → Nat) :
    ∀ (blocks : List Block) (st : α) (state : Option Snapshot)
      (proofs : List ProofEntry) (stf : α) (evss : List (List Event)),
      applyLoop A c blocks st = .ok (state, proofs, stf, evss) →
      evss.length = blocks.length
        ∧ proofs = proofEntriesOfEvents (evss.getLastD [])
        ∧ ∀ evs ∈ evss, ∃ evIn evOut, evs = evIn ++ evOut
            ∧ (∀ e ∈ evIn, e.isRemove = true ∧ (e.outpoint).data.cached = false)
            ∧ (∀ e ∈ evOut, e.isRemove = false ∧ (e.outpoint).data.cached = false)
  | [], st, state, proofs, stf, evss, h => by
    simp only [applyLoop] at h
    cases h
    exact ⟨rfl, rfl, by simp⟩
  | b :: rest, st, state, proofs, stf, evss, h => by
    simp only [applyLoop] at h
    split at h
    · cases h
    · split at h
      · cases h
      · cases h
        rename_i x1 bp st1 evs h1 x2 state2 proofs2 evss2 h2
        have ihrec := applyLoop_spec A c rest st1 state2 proofs2 stf evss2 h2
        have hpb := processBlock_spec A c b st bp st1 evs h1
        refine ⟨by simp [ihrec.1], ?_, ?_⟩
        · by_cases hre : rest.isEmpty = true
          · rw [if_pos hre]
            have hrest : rest = [] := List.isEmpty_iff.mp hre
            have hevss2 : evss2 = [] := by
              have := ihrec.1
              rw [hrest] at this
              exact List.length_eq_zero.mp this
            subst hevss2
            obtain ⟨evIn, evOut, rfl, hrem, hins, hps⟩ := hpb
            simpa using hps
          · rw [if_neg hre]
            have hne : evss2 ≠ [] := by
              intro hz
              apply hre
              rw [List.isEmpty_iff]
              have hlen : rest.length = 0 := by
                have hl := ihrec.1
                rw [hz] at hl
                simpa using hl.symm
              exact List.length_eq_zero.mp hlen
            obtain ⟨a, t, rfl⟩ := List.exists_cons_of_ne_nil hne
            rw [getLastD_cons_cons evs a t [] []]
            exact ihrec.2.1
        · intro evs2 hmem
          rcases List.mem_cons.mp hmem with hmem | hmem
          · subst hmem
            obtain ⟨evIn, evOut, heq, hrem, hins, hps⟩ := hpb
            exact ⟨evIn, evOut, heq, hrem, hins⟩
          · exact ihrec.2.2 evs2 hmem

theorem handle_txin_leaves_subset (c : List Nat → Nat) :
    ∀ (ins : List TxIn) (st : Utreexo) (ps : List ProofEntry) (st1 : Utreexo)
      (evs : List Event),
      handle_txin specAccum c ins st = .ok (ps, st1, evs) →
      st1.leaves ⊆ st.leaves
  | [], st, ps, st1, evs, h => by
    simp only [handle_txin] at h
    cases h
    exact fun x hx => hx
  | inp :: rest, st, ps, st1, evs, h => by
    simp only [handle_txin] at h
    split at h
    · exact handle_txin_leaves_subset c rest st ps st1 evs h
    · split at h
      · cases h
      · split at h
        · cases h
        · cases h
          rename_i hc x1 pr li st' hdel x2 ps2 evs2 hrec
          have ih := handle_txin_leaves_subset c rest st' ps2 st1 evs2 hrec
          have herase : st'.leaves ⊆ st.leaves := by
            simp only [specAccum] at hdel
            split at hdel
            · cases hdel
              exact List.erase_subset _ _
            · cases hdel
          exact fun x hx => herase (ih hx)

theorem handle_txin_error (c : List Nat → Nat) :
    ∀ (ins : List TxIn) (st : Utreexo) (inp : TxIn), inp ∈ ins →
      inp.previous_output.data.cached = false →
      (prevOutpoint inp.previous_output).hash c ∉ st.leaves →
      ∃ e, handle_txin specAccum c ins st = .error e
  | [], st, inp, hmem, _, _ => absurd hmem (List.not_mem_nil inp)
  | inp0 :: rest, st, inp, hmem, hcf, hnot => by
    rcases List.mem_cons.mp hmem with hmem | hmem
    · subst hmem
      have hdel : specAccum.delete st ((prevOutpoint inp.previous_output).hash c)
          = none := by
        simp [specAccum, hnot]
      refine ⟨"structural inconsistency: removed leaf not in accumulator", ?_⟩
      simp only [handle_txin, hcf]
      simp [hdel]
    · cases hc0 : inp0.previous_output.data.cached with
      | true =>
        obtain ⟨e, he⟩ := handle_txin_error c rest st inp hmem hcf hnot
        exact ⟨e, by simp only [handle_txin, hc0]; simpa using he⟩
      | false =>
        cases hdel : specAccum.delete st
            ((prevOutpoint inp0.previous_output).hash c) with
        | none =>
          refine ⟨"structural inconsistency: removed leaf not in accumulator", ?_⟩
          simp only [handle_txin, hc0]
          simp [hdel]
        | some v =>
          obtain ⟨pr, li, st'⟩ := v
          have hsub : st'.leaves ⊆ st.leaves := by
            simp only [specAccum] at hdel
            split at hdel
            · cases hdel
              exact List.erase_subset _ _
            · cases hdel
          have hnot2 : (prevOutpoint inp.previous_output).hash c ∉ st'.leaves :=
            fun hx => hnot (hsub hx)
          obtain ⟨e, he⟩ := handle_txin_error c rest st' inp hmem hcf hnot2
          refine ⟨e, ?_⟩
          simp only [handle_txin, hc0]
          simp [hdel, he]

theorem inputPhaseAux_error (c : List Nat → Nat) :
    ∀ (txs : List (List Byte × Tx)) (st : Utreexo) (p : List Byte × Tx)
      (inp : TxIn), p ∈ txs → inp ∈ p.2.inputs →
      inp.previous_output.data.cached = false →
      (prevOutpoint inp.previous_output).hash c ∉ st.leaves →
      ∃ e, inputPhaseAux specAccum c txs st = .error e
  | [], st, p, inp, hmem, _, _, _ => absurd hmem (List.not_mem_nil p)
  | (t0, tx0) :: rest, st, p, inp, hmem, hin, hcf, hnot => by
    rcases List.mem_cons.mp hmem with hmem | hmem
    · subst hmem
      obtain ⟨e, he⟩ := handle_txin_error c tx0.inputs st inp hin hcf hnot
      exact ⟨e, by simp only [inputPhaseAux]; simp [he]⟩
    · cases hh : handle_txin specAccum c tx0.inputs st with
      | error e =>
        exact ⟨e, by simp only [inputPhaseAux]; simp [hh]⟩
      | ok v =>
        obtain ⟨ps1, st2, evs1⟩ := v
        have hsub := handle_txin_leaves_subset c tx0.inputs st ps1 st2 evs1 hh
        have hnot2 : (prevOutpoint inp.previous_output).hash c ∉ st2.leaves :=
          fun hx => hnot (hsub hx)
        obtain ⟨e, he⟩ := inputPhaseAux_error c rest st2 p inp hmem hin hcf hnot2
        exact ⟨e, by simp only [inputPhaseAux]; simp [hh, he]⟩

/-- Claim C4: within every block processed by `apply_blocks`, every
accumulator remove call issued for that block precedes every insert call
issued for that block (each per-block event list is removals followed by
insertions); consequently, for a block whose transaction at position
`j >= 1` spends through a non-cached input an output created by an
earlier transaction at position `k < j` of the same block — so that the
spent leaf is not in the accumulator when the block starts —
`apply_blocks` over the spec-modelled accumulator fails with the
structural-inconsistency error raised by the remove, instead of
succeeding. -/
theorem C4_two_phase :
    (∀ (α : Type) (A : AccumAPI α) (c : List Nat → Nat) (st0 : α)
       (blocks : List Block) (r : ApplyResult α),
       apply_blocks A c st0 blocks = .ok r →
       ∀ evs ∈ r.block_events, ∃ evIn evOut, evs = evIn ++ evOut
         ∧ (∀ e ∈ evIn, e.isRemove = true)
         ∧ (∀ e ∈ evOut, e.isRemove = false))
    ∧ (∀ (c : List Nat → Nat) (st1 : Utreexo) (b : Block) (post : List Block)
         (j k : Nat) (txidj txidk : List Byte) (txj txk : Tx) (inp : TxIn),
         b.data[j]? = some (txidj, txj) → 1 ≤ j → inp ∈ txj.inputs →
         inp.previous_output.data.cached = false →
         k < j → b.data[k]? = some (txidk, txk) →
         inp.previous_output.txid = txidk →
         txk.outputs[inp.previous_output.vout]? = some inp.previous_output.data →
         (prevOutpoint inp.previous_output).hash c ∉ st1.leaves →
         ∃ e, apply_blocks specAccum c st1 (b :: post) = .error e) := by
  constructor
  · intro α A c st0 blocks r h evs hmem
    simp only [apply_blocks] at h
    split at h
    · cases h
    · cases h
      rename_i x1 state proofs stf evss happ
      obtain ⟨evIn, evOut, heq, hrem, hins⟩ :=
        (applyLoop_spec A c blocks st0 state proofs stf evss happ).2.2 evs hmem
      exact ⟨evIn, evOut, heq, fun e he => (hrem e he).1, fun e he => (hins e he).1⟩
  · intro c st1 b post j k txidj txidk txj txk inp hj hj1 hin hcf hkj hk htxid hout
      hnot
    have hdropped : (b.data.drop 1)[j - 1]? = some (txidj, txj) := by
      rw [List.getElem?_drop]
      have hj' : 1 + (j - 1) = j := by omega
      rw [hj']
      exact hj
    have hmem : (txidj, txj) ∈ b.data.drop 1 := List.getElem?_mem hdropped
    obtain ⟨e, he⟩ := inputPhaseAux_error c (b.data.drop 1) st1 (txidj, txj) inp
      hmem hin hcf hnot
    refine ⟨e, ?_⟩
    rw [List.drop_one] at he
    simp only [apply_blocks, applyLoop, processBlock]
    simp [he]

theorem C4_two_phase_witness :
    ∃ e, apply_blocks specAccum cexCompress utreexo0 [blockD] = .error e :=
  C4_two_phase.2 cexCompress utreexo0 blockD [] 1 0 (List.replicate 32 9) txidA
    { inputs := [{ previous_output :=
        { txid := txidA, vout := 0, data := outA, block_height := 103,
          block_time := 1003, block_hash := List.replicate 32 8,
          is_coinbase := true } }], outputs := [] }
    { inputs := [], outputs := [outA] }
    { previous_output :=
        { txid := txidA, vout := 0, data := outA, block_height := 103,
          block_time := 1003, block_hash := List.replicate 32 8,
          is_coinbase := true } }
    (by decide) (by decide) (by decide) (by decide) (by decide) (by decide)
    (by decide) (by decide) (by decide)

/-- Claim C5: the proofs list returned by `apply_blocks` is exactly the
proof-entry sequence of the accumulator calls made for the last block —
one entry per remove performed there, in the order performed — and, the
per-block event record having one entry per block, removals of earlier
blocks contribute nothing. -/
theorem C5_last_block_proofs {α : Type} (A : AccumAPI α) (c : List Nat → Nat)
    (st0 : α) (blocks : List Block) (r : ApplyResult α)
    (h : apply_blocks A c st0 blocks = .ok r) :
    r.proofs = proofEntriesOfEvents (r.block_events.getLastD [])
      ∧ r.block_events.length = blocks.length := by
  simp only [apply_blocks] at h
  split at h
  · cases h
  · cases h
    rename_i x1 state proofs stf evss happ
    have hs := applyLoop_spec A c blocks st0 state proofs stf evss happ
    exact ⟨hs.2.1, hs.1⟩

theorem C5_last_block_proofs_witness :
    resultAB.proofs = proofEntriesOfEvents (resultAB.block_events.getLastD [])
      ∧ resultAB.block_events.length = [blockA, blockB].length :=
  C5_last_block_proofs specAccum cexCompress utreexo0 [blockA, blockB] resultAB
    (by rfl)

theorem outputPhaseAux_congr {α : Type} (A : AccumAPI α) (c : List Nat → Nat)
    (b b2 : Block) (hh : b.hash = b2.hash) (hht : b.height = b2.height)
    (ht : b.time = b2.time) :
    ∀ (i : Nat) (txs : List (List Byte × Tx)) (st : α),
      outputPhaseAux A c b i txs st = outputPhaseAux A c b2 i txs st
  | i, [], st => rfl
  | i, (txid, tx) :: rest, st => by
    simp only [outputPhaseAux, hh, hht, ht,
      outputPhaseAux_congr A c b b2 hh hht ht (i + 1) rest]

theorem processBlock_setFirstInputs {α : Type} (A : AccumAPI α)
    (c : List Nat → Nat) (b : Block) (ins : List TxIn) (st : α) :
    processBlock A c (setFirstInputs b ins) st = processBlock A c b st := by
  obtain ⟨bh, bht, bt, bdata⟩ := b
  cases bdata with
  | nil => rfl
  | cons p rest =>
    obtain ⟨txid0, tx0⟩ := p
    have hcongr := outputPhaseAux_congr A c
      ⟨bh, bht, bt, (txid0, { tx0 with inputs := ins }) :: rest⟩
      ⟨bh, bht, bt, (txid0, tx0) :: rest⟩ rfl rfl rfl
    simp only [processBlock, setFirstInputs, outputPhaseAux, handle_txout,
      List.drop_succ_cons, List.drop_zero, hcongr]

theorem isEmpty_map_block (g : Block → Block) (l : List Block) :
    (l.map g).isEmpty = l.isEmpty := by
  cases l <;> rfl

theorem applyLoop_setFirstInputs {α : Type} (A : AccumAPI α)
    (c : List Nat → Nat) (f : Block → List TxIn) :
    ∀ (blocks : List Block) (st : α),
      applyLoop A c (blocks.map fun b => setFirstInputs b (f b)) st
        = applyLoop A c blocks st
  | [], st => rfl
  | b :: rest, st => by
    simp only [List.map_cons, applyLoop, processBlock_setFirstInputs,
      applyLoop_setFirstInputs A c f rest,
      isEmpty_map_block (fun b => setFirstInputs b (f b)) rest]

/-- Claim C7: the inputs of the first transaction of every block (the
coinbase) are never processed: replacing them by anything leaves the
whole result of `apply_blocks` — the ghost record of accumulator calls
included, so in particular every remove call — unchanged; no remove is
ever issued for them. -/
theorem C7_coinbase_inputs_ignored {α : Type} (A : AccumAPI α)
    (c : List Nat → Nat) (st0 : α) (blocks : List Block)
    (f : Block → List TxIn) :
    apply_blocks A c st0 (blocks.map fun b => setFirstInputs b (f b))
      = apply_blocks A c st0 blocks := by
  simp only [apply_blocks, applyLoop_setFirstInputs A c f blocks st0]

theorem handle_txin_all_cached {α : Type} (A : AccumAPI α) (c : List Nat → Nat) :
    ∀ (ins : List TxIn) (st : α),
      (∀ inp ∈ ins, inp.previous_output.data.cached = true) →
      handle_txin A c ins st = .ok ([], st, [])
  | [], st, _ => rfl
  | inp :: rest, st, h => by
    have hc := h inp (List.mem_cons_self inp rest)
    simp only [handle_txin, hc, if_pos]
    exact handle_txin_all_cached A c rest st
      fun x hx => h x (List.mem_cons_of_mem _ hx)

theorem inputPhaseAux_all_cached {α : Type} (A : AccumAPI α)
    (c : List Nat → Nat) :
    ∀ (txs : List (List Byte × Tx)) (st : α),
      (∀ p ∈ txs, ∀ inp ∈ p.2.inputs, inp.previous_output.data.cached = true) →
      inputPhaseAux A c txs st = .ok ([], st, [])
  | [], st, _ => rfl
  | (txid, tx) :: rest, st, h => by
    have h1 := handle_txin_all_cached A c tx.inputs st
      (h (txid, tx) (List.mem_cons_self _ rest))
    have h2 := inputPhaseAux_all_cached A c rest st
      fun p hp => h p (List.mem_cons_of_mem _ hp)
    simp only [inputPhaseAux, h1, h2]
    rfl

theorem handle_txout_go_all_cached {α : Type} (A : AccumAPI α)
    (c : List Nat → Nat) (bh : List Byte) (hh tt : Nat) (txid : List Byte)
    (cb : Bool) :
    ∀ (i : Nat) (outs : List TxOutDict) (st : α),
      (∀ o ∈ outs, o.cached = true) →
      handle_txout_go A c bh hh tt txid cb i outs st = (st, [])
  | _, [], st, _ => rfl
  | i, out :: rest, st, h => by
    have hc := h out (List.mem_cons_self out rest)
    simp only [handle_txout_go, hc, if_pos]
    exact handle_txout_go_all_cached A c bh hh tt txid cb (i + 1) rest st
      fun x hx => h x (List.mem_cons_of_mem _ hx)

theorem outputPhaseAux_all_cached {α : Type} (A : AccumAPI α)
    (c : List Nat → Nat) (b : Block) :
    ∀ (i : Nat) (txs : List (List Byte × Tx)) (st : α),
      (∀ p ∈ txs, ∀ o ∈ p.2.outputs, o.cached = true) →
      outputPhaseAux A c b i txs st = (st, [])
  | _, [], st, _ => rfl
  | i, (txid, tx) :: rest, st, h => by
    have h1 := handle_txout_go_all_cached A c b.hash b.height b.time txid (i == 0)
      0 tx.outputs st (h (txid, tx) (List.mem_cons_self _ rest))
    have h2 := outputPhaseAux_all_cached A c b (i + 1) rest st
      fun p hp => h p (List.mem_cons_of_mem _ hp)
    simp only [outputPhaseAux, handle_txout, h1, h2]
    rfl

/-- Claim C8: a block whose every input's referenced output and every
output is cached makes zero accumulator calls: processing it returns the
accumulator unchanged with an empty event list and no proof entries, and
replaying it alone leaves `expected` (in particular its leaf count) equal
to the pre-block snapshot `state`. -/
theorem C8_cached_skip {α : Type} (A : AccumAPI α) (c : List Nat → Nat)
    (b : Block) (st : α)
    (h : ∀ p ∈ b.data,
        (∀ inp ∈ p.2.inputs, inp.previous_output.data.cached = true)
          ∧ ∀ o ∈ p.2.outputs, o.cached = true) :
    processBlock A c b st = .ok ([], st, [])
      ∧ apply_blocks A c st [b]
        = .ok { state := some (A.snapshot_state st), proofs := [],
                expected := A.snapshot_state st, final_acc := st,
                block_events := [[]] } := by
  have h1 := inputPhaseAux_all_cached A c (b.data.drop 1) st
    fun p hp => (h p (List.mem_of_mem_drop hp)).1
  have h2 := outputPhaseAux_all_cached A c b 0 b.data st
    fun p hp => (h p hp).2
  have hpb : processBlock A c b st = .ok ([], st, []) := by
    simp only [processBlock, h1, h2]
    rfl
  refine ⟨hpb, ?_⟩
  simp only [apply_blocks, applyLoop, hpb]
  rfl

theorem C8_cached_skip_witness :
    processBlock specAccum cexCompress blockC utreexo0 = .ok ([], utreexo0, [])
      ∧ apply_blocks specAccum cexCompress utreexo0 [blockC]
        = .ok { state := some (specAccum.snapshot_state utreexo0), proofs := [],
                expected := specAccum.snapshot_state utreexo0,
                final_acc := utreexo0, block_events := [[]] } :=
  C8_cached_skip specAccum cexCompress blockC utreexo0 (by decide)

theorem applyLoop_append {α : Type} (A : AccumAPI α) (c : List Nat → Nat) :
    ∀ (xs ys : List Block) (st : α), ys ≠ [] →
      applyLoop A c (xs ++ ys) st
        = match applyLoop A c xs st with
          | .error e => .error e
          | .ok (_, _, a, exs) =>
            match applyLoop A c ys a with
            | .error e => .error e
            | .ok (s2, p2, a2, eys) => .ok (s2, p2, a2, exs ++ eys)
  | [], ys, st, hys => by
    simp only [List.nil_append, applyLoop]
    cases hy : applyLoop A c ys st with
    | error e => simp [hy]
    | ok v =>
      obtain ⟨s2, p2, a2, eys⟩ := v
      simp [hy]
  | x :: xs, ys, st, hys => by
    have hfalse : (xs ++ ys).isEmpty = false := by
      cases hxy : xs ++ ys with
      | nil => exact absurd (List.append_eq_nil.mp hxy).2 hys
      | cons a t => rfl
    simp only [List.cons_append, applyLoop]
    cases hpb : processBlock A c x st with
    | error e => simp [hpb]
    | ok v =>
      obtain ⟨bp, st1, evs⟩ := v
      simp only [hpb, List.append_eq, hfalse, Bool.false_eq_true, if_false]
      rw [applyLoop_append A c xs ys st1 hys]
      cases hxs : applyLoop A c xs st1 with
      | error e => simp
      | ok w =>
        obtain ⟨s, p, a, exs⟩ := w
        cases hys2 : applyLoop A c ys a with
        | error e => simp [hys2]
        | ok u =>
          obtain ⟨s2, p2, a2, eys⟩ := u
          simp [hys2]

/-- Claim C6: for a non-empty block sequence `blocks ++ [b]`,
`apply_blocks` returns `state` equal to the snapshot of the accumulator
reached after the prefix `blocks` — the state immediately before any
mutation of the last block — and `expected` equal to the snapshot of the
final accumulator; for an empty sequence it returns the empty `state`
(`none`). -/
theorem C6_snapshots {α : Type} (A : AccumAPI α) (c : List Nat → Nat)
    (st0 : α) :
    (∀ (blocks : List Block) (b : Block) (r2 : ApplyResult α),
        apply_blocks A c st0 (blocks ++ [b]) = .ok r2 →
        ∃ r1, apply_blocks A c st0 blocks = .ok r1
          ∧ r2.state = some (A.snapshot_state r1.final_acc)
          ∧ r2.expected = A.snapshot_state r2.final_acc)
      ∧ apply_blocks A c st0 []
          = .ok { state := none, proofs := [],
                  expected := A.snapshot_state st0, final_acc := st0,
                  block_events := [] } := by
  constructor
  · intro blocks b r2 h
    simp only [apply_blocks] at h
    rw [applyLoop_append A c blocks [b] st0 (by simp)] at h
    cases hxs : applyLoop A c blocks st0 with
    | error e => rw [hxs] at h; simp at h
    | ok w =>
      obtain ⟨s, p, a, exs⟩ := w
      rw [hxs] at h
      dsimp only at h
      cases hb : processBlock A c b a with
      | error e =>
        have hsingle : applyLoop A c [b] a = .error e := by
          simp [applyLoop, hb]
        rw [hsingle] at h
        simp at h
      | ok v =>
        obtain ⟨bp, st1, evs⟩ := v
        have hsingle : applyLoop A c [b] a
            = .ok (some (A.snapshot_state a), bp, st1, [evs]) := by
          simp [applyLoop, hb]
        rw [hsingle] at h
        dsimp only at h
        cases h
        refine ⟨{ state := s, proofs := p, expected := A.snapshot_state a,
                  final_acc := a, block_events := exs }, ?_, rfl, rfl⟩
        simp [apply_blocks, hxs]
  · rfl

theorem C6_snapshots_witness :
    ∃ r1, apply_blocks specAccum cexCompress utreexo0 [blockA] = .ok r1
      ∧ resultAB.state = some (specAccum.snapshot_state r1.final_acc)
      ∧ resultAB.expected = specAccum.snapshot_state resultAB.final_acc :=
  (C6_snapshots specAccum cexCompress utreexo0).1 [blockA] blockB resultAB
    (by rfl)

theorem serialize_split (t : TxOut) :
    t.serialize
      = (t.value :: (packBytes t.pk_script).sub_data.length ::
            (packBytes t.pk_script).sub_data
          ++ (if (packBytes t.pk_script).pending_word_len > 0
              then [(packBytes t.pk_script).pending_word] else [])
          ++ [(packBytes t.pk_script).pending_word_len])
        ++ [if t.cached then 1 else 0] := by
  simp [TxOut.serialize]

theorem hashInput_ends (o : OutPoint) (h : o.data.cached = false) :
    ∃ l, o.hashInput
      = l ++ [0, leBytes (o.block_hash.take 16), leBytes (o.block_hash.drop 16),
          o.block_height, o.block_time, if o.is_coinbase then 1 else 0] := by
  refine ⟨[leBytes (o.txid.take 16), leBytes (o.txid.drop 16), o.vout]
      ++ (o.data.value :: (packBytes o.data.pk_script).sub_data.length ::
            (packBytes o.data.pk_script).sub_data
          ++ (if (packBytes o.data.pk_script).pending_word_len > 0
              then [(packBytes o.data.pk_script).pending_word] else [])
          ++ [(packBytes o.data.pk_script).pending_word_len]), ?_⟩
  rw [OutPoint.hashInput, serialize_split, h]
  simp [List.append_assoc]

/-- Claim C10 (amended): every leaf ever passed to the accumulator by
`handle_txin`'s remove or `handle_txout`'s insert is the hash of an
outpoint whose output has `cached = false`; consequently the
field-element sequence compressed into the leaf contains the cached-flag
element 0 as its sixth-from-last element — the final element of the
embedded `serialize()` subsequence, followed by the two block-hash
halves, height, time and the coinbase flag (which, not the cached flag,
is the last element).  No leaf for a cached output reaches the
accumulator in either direction. -/
theorem C10_leaf_shape {α : Type} (A : AccumAPI α) (c : List Nat → Nat)
    (st0 : α) (blocks : List Block) (r : ApplyResult α)
    (h : apply_blocks A c st0 blocks = .ok r) :
    ∀ evs ∈ r.block_events, ∀ e ∈ evs,
      (e.outpoint).data.cached = false
        ∧ ∃ l, (e.outpoint).hashInput
            = l ++ [0, leBytes ((e.outpoint).block_hash.take 16),
                leBytes ((e.outpoint).block_hash.drop 16),
                (e.outpoint).block_height, (e.outpoint).block_time,
                if (e.outpoint).is_coinbase then 1 else 0] := by
  intro evs hevs e he
  simp only [apply_blocks] at h
  split at h
  · cases h
  · cases h
    rename_i x1 state proofs stf evss happ
    obtain ⟨evIn, evOut, heq, hrem, hins⟩ :=
      (applyLoop_spec A c blocks st0 state proofs stf evss happ).2.2 evs hevs
    subst heq
    have hcf : (e.outpoint).data.cached = false := by
      rcases List.mem_append.mp he with he | he
      · exact (hrem e he).2
      · exact (hins e he).2
    exact ⟨hcf, hashInput_ends e.outpoint hcf⟩

theorem C10_leaf_shape_witness :
    outpointA.data.cached = false
      ∧ ∃ l, outpointA.hashInput
          = l ++ [0, leBytes (outpointA.block_hash.take 16),
              leBytes (outpointA.block_hash.drop 16), outpointA.block_height,
              outpointA.block_time, if outpointA.is_coinbase then 1 else 0] :=
  C10_leaf_shape specAccum cexCompress utreexo0 [blockA] resultA (by rfl)
    [Event.insert outpointA] (by decide) (Event.insert outpointA) (by decide)

/-- Claim C10, as stated, is false on a concrete run: the single leaf
inserted while replaying `blockA` is hashed from a sequence whose last
element is 1 (the coinbase flag), not 0 — the cached-flag 0 sits six
positions from the end, not at the end. -/
theorem C10_counterexample :
    Except.map
        (fun r : ApplyResult Utreexo => r.block_events.map fun evs =>
          evs.map fun e => (e.outpoint).hashInput.getLastD 0)
        (apply_blocks specAccum cexCompress utreexo0 [blockA])
      = .ok [[1]] ∧ (1 : Nat) ≠ 0 :=
  ⟨by rfl, by decide⟩

end UtreexoGen
